import Mathlib

/-!
Shallow embedding of the core of the `ukis_sat2h5` package
(`ukis_sat2h5/conversion.py` and `ukis_sat2h5/tiling.py`): packing a set of
georeferenced rasters into an array store, tiling a store with recomputed
affine geotransforms, and reconstructing rasters from a store.

Arrays are nested lists of integers (`A2` for height x width, `A3` for
bands x height x width), geotransforms are six rationals in GDAL order,
and fallible operations return `Except`.  numpy machine integer casts
(`astype(rio.uint16)`, `astype("int16")`) are modelled with explicit
mod-`2^16` arithmetic, while the HDF5 type conversion performed when
source-dtype chunks are written into the converter's `uint16` datasets
clips out-of-range values at the destination bounds.
-/

namespace UkisSat2h5

instance {ε α : Type*} [DecidableEq ε] [DecidableEq α] : DecidableEq (Except ε α) := fun x y =>
  match x, y with
  | .ok a, .ok b => if h : a = b then .isTrue (by rw [h]) else .isFalse (by simp [h])
  | .error e, .error f => if h : e = f then .isTrue (by rw [h]) else .isFalse (by simp [h])
  | .ok _, .error _ => .isFalse (by simp)
  | .error _, .ok _ => .isFalse (by simp)

/-- numpy cast to unsigned 16-bit: wrap into `[0, 65536)`.  This is what
`astype(rio.uint16)` does in `_create_raster` before writing a raster. -/
def u16 (v : ℤ) : ℤ := v % 65536

/-- HDF5 integer type conversion into a `uint16` dataset: when h5py is
handed an ndarray of a wider source dtype, the library CLIPS out-of-range
values at the destination bounds (`0` and `65535`) rather than wrapping.
This happens when the converter's source-dtype pixel chunks are stored
into the `uint16` `/img` and `/lbl` datasets. -/
def u16clip (v : ℤ) : ℤ :=
  if v < 0 then 0 else if 65535 < v then 65535 else v

/-- numpy `astype("int16")`: wrap into `[-32768, 32768)`. -/
def i16 (v : ℤ) : ℤ := (v + 32768) % 65536 - 32768

/-- C-style float-to-integer conversion truncates toward zero
(`Int.tdiv` is truncating division). -/
def ratTrunc (q : ℚ) : ℤ := q.num.tdiv q.den

/-- numpy `astype("int16")` on a float64 value: truncate toward zero, then
wrap into the signed 16-bit range. -/
def i16ofRat (q : ℚ) : ℤ := i16 (ratTrunc q)

/-- Approximate square root on rationals, modelling the float64 square root
used by `da.std` (only the number of std entries matters to the claims). -/
def ratSqrt (q : ℚ) : ℚ := (Int.sqrt q.num : ℚ) / (Nat.sqrt q.den : ℚ)

/-- A 2-D pixel array (height x width) as a list of rows. -/
abbrev A2 := List (List ℤ)

/-- A 3-D pixel array (bands x height x width). -/
abbrev A3 := List A2

/-- `Rect a h w`: `a` is a well-formed `h` x `w` array. -/
def Rect (a : A2) (h w : ℕ) : Prop := a.length = h ∧ ∀ r ∈ a, r.length = w

instance (a : A2) (h w : ℕ) : Decidable (Rect a h w) := by
  unfold Rect; infer_instance

/-- Total pixel accessor: out-of-range indices give `0`. -/
def getv (a : A2) (i j : ℕ) : ℤ := (a.getD i []).getD j 0

/-- Map a function over every value of a 2-D array. -/
def mapA2 (f : ℤ → ℤ) (a : A2) : A2 := a.map (List.map f)

/-- Map a function over every value of a 3-D array. -/
def mapA3 (f : ℤ → ℤ) (x : A3) : A3 := x.map (mapA2 f)

/-- `np.pad(a, ((0, ph), (0, pw)))` with constant fill `0`: append `pw`
zeros to each of the rows (of width `w`) and then `ph` all-zero rows. -/
def pad2 (a : A2) (w ph pw : ℕ) : A2 :=
  a.map (fun r => r ++ List.replicate pw 0) ++
    List.replicate ph (List.replicate (w + pw) 0)

/-- The `t` x `t` window of `a` whose upper-left pixel is `(r, c)`. -/
def crop2 (a : A2) (r c t : ℕ) : A2 :=
  ((a.drop r).take t).map (fun row => (row.drop c).take t)

/-- Python extended slicing `l[::o]` for `o ≥ 1`: the elements whose
position is a multiple of `o`. -/
def everyNth (l : List α) (o : ℕ) : List α :=
  (l.enum.filter (fun p => p.1 % o == 0)).map Prod.snd

/-- Python `range(0, stop, step)` for `step ≥ 1` (used with a possibly
negative `stop`, where it is empty). -/
def pyRange (stop : ℤ) (step : ℕ) : List ℕ :=
  if stop ≤ 0 then [] else (List.range ((stop - 1).toNat / step + 1)).map (· * step)

/-- A 6-parameter geotransform in GDAL order
`(origin_x, pixel_width, row_rotation, origin_y, col_rotation, pixel_height)`. -/
structure Geo where
  a0 : ℚ
  a1 : ℚ
  a2 : ℚ
  a3 : ℚ
  a4 : ℚ
  a5 : ℚ
deriving DecidableEq

/-- Semantics of
`rio.transform.AffineTransformer(rio.Affine.from_gdal(*affine)).xy(row, col, offset="ul")`:
the geographic coordinate of the upper-left corner of pixel `(row, col)`
under a GDAL-order geotransform. -/
def affineXY (g : Geo) (row col : ℕ) : ℚ × ℚ :=
  (g.a0 + col * g.a1 + row * g.a2, g.a3 + col * g.a4 + row * g.a5)

/-- `_affine_from_rowcol`: the tuple `(x, *affine[1:3], y, *affine[-2:])`. -/
def affine_from_rowcol (g : Geo) (row col : ℕ) : Geo :=
  ⟨(affineXY g row col).1, g.a1, g.a2, (affineXY g row col).2, g.a4, g.a5⟩

/-- `_tile_one_affine`: affine transforms for all tiles of one image, row
offsets outer and column offsets inner, both drawn from
`range(0, target_size - tile_size + 1, overlap)`. -/
def tile_one_affine (g : Geo) (target_size tile_size overlap : ℕ) : List Geo :=
  (pyRange ((target_size : ℤ) - tile_size + 1) overlap).flatMap (fun row =>
    (pyRange ((target_size : ℤ) - tile_size + 1) overlap).map (fun col =>
      affine_from_rowcol g row col))

/-- `_tile_array` on one stored item (the code receives blocks of shape
`(1, C, H, W)`; the leading length-1 block axis is dropped here, the
reshape merges it into the tile axis).  The item is zero-padded to
`pad_size` x `pad_size` (`np.pad` rejects a negative pad width),
windows of shape `(C, tile_size, tile_size)` are enumerated by
`sliding_window_view` (which rejects a window larger than the padded
array), strided by `[::overlap, ::overlap]`, and the final reshape
flattens the window row and column axes in row-major order. -/
def tile_array (arr : A3) (tile_size overlap pad_size : ℕ) : Except Unit (List A3) :=
  let h := (arr.headD []).length
  let w := ((arr.headD []).headD []).length
  if h ≤ pad_size ∧ w ≤ pad_size then
    if tile_size ≤ pad_size then
      let padded := arr.map (fun b => pad2 b w (pad_size - h) (pad_size - w))
      let starts := everyNth (List.range (pad_size - tile_size + 1)) overlap
      .ok (starts.flatMap (fun r => starts.map (fun c =>
        padded.map (fun b => crop2 b r c tile_size))))
    else .error ()
  else .error ()

/-- Sequential fallible map, modelling a loop that stops at the first
failing element. -/
def mapEx (f : α → Except ε β) : List α → Except ε (List β)
  | [] => .ok []
  | a :: l =>
    match f a with
    | .error e => .error e
    | .ok b =>
      match mapEx f l with
      | .error e => .error e
      | .ok bs => .ok (b :: bs)

/-- The array store written by `convert_img_to_h5`: parallel per-item
datasets plus the two per-band statistics vectors.  `/lbl` holds one 2-D
array per item (rank 3 on disk), exactly as `da.stack` of the 2-D label
loads produces it. -/
structure Store where
  img : List A3
  lbl : List A2
  path : List String
  epsg : List ℤ
  affine : List Geo
  img_means : List ℚ
  img_stds : List ℚ
deriving DecidableEq

/-- The array store written by `tile_img_h5`: `/lbl` is rank 4 here
(`np.expand_dims(lbl, axis=1)`), and values have been cast to `int16`. -/
structure TiledStore where
  img : List A3
  lbl : List A3
  path : List String
  epsg : List ℤ
  affine : List Geo
  img_means : List ℤ
  img_stds : List ℤ
deriving DecidableEq

/-- Python `f"{s:0>k}"`-style zero padding of a numeral string. -/
def zfill (k : ℕ) (s : String) : String :=
  String.mk (List.replicate (k - s.length) '0') ++ s

/-- `_tile_paths`: replicate each identifier `n_tiles` times, appending an
underscore and the tile index zero-padded to the digit width of `n_tiles`. -/
def tile_paths (path : List String) (n_tiles : ℕ) : List String :=
  path.flatMap (fun p => (List.range n_tiles).map (fun i =>
    p ++ "_" ++ zfill (Nat.repr n_tiles).length (Nat.repr i)))

/-- `n_tiles = (((target_size - tile_size) // overlap) + 1) ** 2`, with
Python floor division (`Int.fdiv`). -/
def n_tiles_of (target_size tile_size overlap : ℕ) : ℤ :=
  (((target_size : ℤ) - tile_size).fdiv overlap + 1) ^ 2

/-- Failure modes of `tile_img_h5`: a failed row-count `assert`
(the spec's ConsistencyError) or a `ValueError` escaping from
numpy/builtins. -/
inductive TileErr where
  | consistency
  | valueError
deriving DecidableEq

/-- `tile_img_h5`: cast the source datasets to `int16`, derive the
replicated/tiled metadata (each guarded by its row-count `assert`, in
source order: paths, EPSG codes, affines), then materialize the tiled
image and label blocks and write the output store.  `Except.error` models
aborting before the output file is (fully) written. -/
def tile_img_h5 (s : Store) (tile_size overlap target_size : ℕ) :
    Except TileErr TiledStore :=
  let imgC := s.img.map (mapA3 i16)
  let lblC : List A3 := s.lbl.map (fun l => [mapA2 i16 l])
  let meansC := s.img_means.map i16ofRat
  let stdsC := s.img_stds.map i16ofRat
  if overlap = 0 then .error .valueError  -- ZeroDivisionError computing n_tiles
  else if s.path.isEmpty then .error .valueError  -- max() over an empty sequence
  else
    let nt : ℕ := (n_tiles_of target_size tile_size overlap).toNat
    let nRows := s.img.length * nt  -- img_tiled.shape[0], fixed by the dask chunks
    let pathT := tile_paths s.path nt
    if pathT.length = nRows then
      let epsgT := s.epsg.flatMap (fun e => List.replicate nt e)
      if epsgT.length = nRows then
        let affT := s.affine.flatMap
          (fun g => tile_one_affine g target_size tile_size overlap)
        if affT.length = nRows then
          match mapEx (fun x => tile_array x tile_size overlap target_size) imgC,
                mapEx (fun x => tile_array x tile_size overlap target_size) lblC with
          | .ok imgT, .ok lblT =>
            .ok ⟨imgT.flatten, lblT.flatten, pathT, epsgT, affT, meansC, stdsC⟩
          | _, _ => .error .valueError
        else .error .consistency
      else .error .consistency
    else .error .consistency

/-- A source raster paired with its label raster, as assembled from
`_derive_metadata` and the raster reads: selected via `file_glob`, with
dimensions `h` x `w`, EPSG code, GDAL geotransform, pixel bands `img`
(1-based band `b` is `img[b-1]`), the single label band `lbl` of
dimensions `lh` x `lw`, and the file stem used as identifier. -/
structure RasterItem where
  img : A3
  h : ℕ
  w : ℕ
  epsg : ℤ
  geo : Geo
  lbl : A2
  lh : ℕ
  lw : ℕ
  stem : String
deriving DecidableEq

/-- Failure modes of `convert_img_to_h5`: `ValueError` unpacking empty
metadata, the two band `assert`s (the spec's BandCountMismatchError and
ValidationError), or a rasterio read error. -/
inductive ConvErr where
  | emptyInput
  | bandCountMismatch
  | bandIndexError
  | readError
deriving DecidableEq

/-- `src.read(bands)` with a 1-based band list: fails (rasterio
`IndexError`) when a requested band does not exist. -/
def selectBands (img : A3) (bs : List ℕ) : Except Unit A3 :=
  if ∀ b ∈ bs, 1 ≤ b ∧ b ≤ img.length then
    .ok (bs.map (fun b => img.getD (b - 1) []))
  else .error ()

/-- `_load_img`: read the selected bands and zero-pad each on the bottom
and right edges to the canvas (`np.pad` rejects a negative pad width). -/
def load_img (it : RasterItem) (max_width max_height : ℕ) (bands : List ℕ) :
    Except Unit A3 :=
  match selectBands it.img bands with
  | .error e => .error e
  | .ok sel =>
    if it.h ≤ max_height ∧ it.w ≤ max_width then
      .ok (sel.map (fun b => pad2 b it.w (max_height - it.h) (max_width - it.w)))
    else .error ()

/-- The padding half of `_load_lbl`, applied once the fixed file
`label.tif` next to the item has been resolved to the pixel array
`it.lbl` (the path resolution itself is `load_lbl` below). -/
def load_lbl_arr (it : RasterItem) (max_width max_height : ℕ) : Except Unit A2 :=
  if it.lh ≤ max_height ∧ it.lw ≤ max_width then
    .ok (pad2 it.lbl it.lw (max_height - it.lh) (max_width - it.lw))
  else .error ()

/-- The band-selection block of `convert_img_to_h5` (lines 74-83), taking
the probed per-item band counts.  Python truthiness: `if image_bands:`
treats both `None` and the empty list as absent.  With a truthy list the
code asserts `len(set(bands)) == 1` and then
`max(bands) >= max(image_bands)`; otherwise it defaults to
`range(1, max(bands) + 1)`. -/
def band_selection (bands : List ℕ) (image_bands : Option (List ℕ)) :
    Except ConvErr (List ℕ) :=
  match image_bands with
  | some l =>
    if l.isEmpty then .ok ((List.range (bands.foldr max 0)).map (· + 1))
    else
      if bands ≠ [] ∧ ∀ b ∈ bands, b = bands.headD 0 then
        if l.foldr max 0 ≤ bands.foldr max 0 then .ok l
        else .error .bandIndexError
      else .error .bandCountMismatch
  | none => .ok ((List.range (bands.foldr max 0)).map (· + 1))

/-- `max(widths)`: the canvas width all items are padded to. -/
def canvasW (items : List RasterItem) : ℕ := (items.map (·.w)).foldr max 0

/-- `max(heights)`: the canvas height all items are padded to. -/
def canvasH (items : List RasterItem) : ℕ := (items.map (·.h)).foldr max 0

/-- Sum of a list of rationals. -/
def sumQ (l : List ℚ) : ℚ := l.foldr (· + ·) 0

/-- All pixel values of band `c` across the stacked items (the reduction
axes `(0, 2, 3)` of `da.mean` / `da.std`). -/
def bandPixels (imgs : List A3) (c : ℕ) : List ℚ :=
  imgs.flatMap (fun x => ((x.getD c []).flatten).map (fun v => (v : ℚ)))

/-- `da.mean(arr, axis=(0, 2, 3))`: one scalar per band. -/
def band_means (imgs : List A3) (C H W : ℕ) : List ℚ :=
  (List.range C).map (fun c =>
    sumQ (bandPixels imgs c) / ((imgs.length * H * W : ℕ) : ℚ))

/-- `da.std(arr, axis=(0, 2, 3))` (population std, `ddof=0`); the float
square root is modelled by `ratSqrt`. -/
def band_stds (imgs : List A3) (C H W : ℕ) : List ℚ :=
  (List.range C).map (fun c =>
    let m := sumQ (bandPixels imgs c) / ((imgs.length * H * W : ℕ) : ℚ)
    ratSqrt (sumQ ((bandPixels imgs c).map (fun v => (v - m) ^ 2)) /
      ((imgs.length * H * W : ℕ) : ℚ)))

/-- `convert_img_to_h5` on the discovered image/label pairs (globbing is an
external collaborator; each item carries its resolved label array).  Order
of failure matches the source: `zip(*metadata, strict=True)` raises on an
empty input, then the band `assert`s run, then the delayed loads execute
while `da.to_hdf5` writes, and finally `_compute_statistics` reduces the
written `uint16` `/img` data. -/
def convert_img_to_h5 (items : List RasterItem) (image_bands : Option (List ℕ)) :
    Except ConvErr Store :=
  if items.isEmpty then .error .emptyInput
  else
    let maxW := canvasW items
    let maxH := canvasH items
    match band_selection (items.map (fun it => it.img.length)) image_bands with
    | .error e => .error e
    | .ok sel =>
      match mapEx (fun it => load_img it maxW maxH sel) items,
            mapEx (fun it => load_lbl_arr it maxW maxH) items with
      | .ok imgs, .ok lbls =>
        -- h5py hands the source-dtype chunks to HDF5, which clips them
        -- into the uint16 datasets
        let imgsC := imgs.map (mapA3 u16clip)
        let lblsC := lbls.map (mapA2 u16clip)
        .ok { img := imgsC, lbl := lblsC,
              path := items.map (·.stem),
              epsg := items.map (·.epsg),
              affine := items.map (·.geo),
              img_means := band_means imgsC sel.length maxH maxW,
              img_stds := band_stds imgsC sel.length maxH maxW }
      | _, _ => .error .readError

/-- `_create_raster`: rehydrate store row `i` as a raster (metadata taken
from the array shapes and the stored epsg/affine/path entries; pixel data
written with `astype(rio.uint16)`).  The label raster reuses the image
metadata with `count = 1`, and a 2-D label row gains a leading band axis. -/
def create_raster (s : Store) (i : ℕ) : RasterItem :=
  let img := mapA3 u16 (s.img.getD i [])
  let lbl := mapA2 u16 (s.lbl.getD i [])
  { img := img
    h := (img.headD []).length
    w := ((img.headD []).headD []).length
    epsg := s.epsg.getD i 0
    geo := s.affine.getD i ⟨0, 0, 0, 0, 0, 0⟩
    lbl := lbl
    lh := lbl.length
    lw := (lbl.headD []).length
    stem := s.path.getD i "" }

/-- A filesystem path as a list of components. -/
abbrev FPath := List String

/-- `pathlib.PurePath.parent`. -/
def parentDir (p : FPath) : FPath := p.dropLast

/-- A directory tree of single-band label rasters. -/
structure FileSys where
  files : List (FPath × A2)

/-- `rio.open(path)` followed by `read(1)`: `none` models rasterio failing
on a missing file. -/
def fsRead (fs : FileSys) (p : FPath) : Option A2 :=
  (fs.files.find? (fun q => q.1 == p)).map (·.2)

/-- `_load_lbl(image_file, max_width, max_height)`: opens
`image_file.parent / "label.tif"` - the fixed file name, not the name of
the path it was handed - reads the single band, and zero-pads it to the
canvas. -/
def load_lbl (fs : FileSys) (image_file : FPath) (max_width max_height : ℕ) :
    Except Unit A2 :=
  match fsRead fs (parentDir image_file ++ ["label.tif"]) with
  | none => .error ()
  | some a =>
    if a.length ≤ max_height ∧ (a.headD []).length ≤ max_width then
      .ok (pad2 a (a.headD []).length (max_height - a.length)
        (max_width - (a.headD []).length))
    else .error ()

/-- Concrete geotransform used for witness evaluations. -/
def gW : Geo := ⟨100, 2, 0, 50, 0, -2⟩

/-- A one-item source store used for witness evaluations of the tiler. -/
def sdemo : Store :=
  { img := [[[[1]]]], lbl := [[[7]]], path := ["a"], epsg := [1],
    affine := [gW], img_means := [1], img_stds := [0] }

/-- The tiled store `tile_img_h5 sdemo 1 1 1` produces. -/
def sdemoTiled : TiledStore :=
  { img := [[[[1]]]], lbl := [[[[7]]]], path := ["a_0"], epsg := [1],
    affine := [gW], img_means := [1], img_stds := [0] }

/-- A 1 x 1 raster whose single pixel does not fit `uint16`. -/
def itSmall : RasterItem :=
  { img := [[[70000]]], h := 1, w := 1, epsg := 1, geo := gW,
    lbl := [[1]], lh := 1, lw := 1, stem := "s" }

/-- A 2 x 2 single-band raster. -/
def itBig : RasterItem :=
  { img := [[[1, 2], [3, 4]]], h := 2, w := 2, epsg := 1, geo := gW,
    lbl := [[0, 0], [0, 0]], lh := 2, lw := 2, stem := "b" }

/-- A ten-item input set with one undersized member, as in the spec's
ten-item round-trip property. -/
def cexItems : List RasterItem := itSmall :: List.replicate 9 itBig

/-- A single well-formed 1 x 1 raster. -/
def oneItem : RasterItem :=
  { img := [[[5]]], h := 1, w := 1, epsg := 7, geo := gW,
    lbl := [[2]], lh := 1, lw := 1, stem := "a" }

/-- The store `convert_img_to_h5 [oneItem] none` produces. -/
def w4store : Store :=
  { img := [[[[5]]]], lbl := [[[2]]], path := ["a"], epsg := [7],
    affine := [gW], img_means := [5], img_stds := [0] }

/-- A 2 x 3 single-band raster (to exhibit the stored label rank). -/
def itWide : RasterItem :=
  { img := [[[1, 2, 3], [4, 5, 6]]], h := 2, w := 3, epsg := 1, geo := gW,
    lbl := [[1, 0, 1], [0, 1, 0]], lh := 2, lw := 3, stem := "wide" }

/-- A single-band raster item. -/
def itB1 : RasterItem :=
  { img := [[[1]]], h := 1, w := 1, epsg := 1, geo := gW,
    lbl := [[0]], lh := 1, lw := 1, stem := "b1" }

/-- A two-band raster item. -/
def itB2 : RasterItem :=
  { img := [[[1]], [[2]]], h := 1, w := 1, epsg := 1, geo := gW,
    lbl := [[0]], lh := 1, lw := 1, stem := "b2" }

/-- A directory holding a single label raster stored under a name other
than `label.tif` (it still matches the default glob `*label*`). -/
def fsW : FileSys :=
  { files := [(["d", "label_a.tif"], [[1]])] }

section ListLemmas

variable {α : Type*} {β : Type*} {γ : Type*}

theorem ceil_div_succ_of_mod_eq_zero {k o : ℕ} (ho : 0 < o) (h : k % o = 0) :
    (k + 1 + o - 1) / o = (k + o - 1) / o + 1 := by
  have hk : o * (k / o) + k % o = k := Nat.div_add_mod k o
  rw [h, Nat.add_zero] at hk
  have h1 : k + o - 1 = o * (k / o) + (o - 1) := by omega
  have h2 : k + 1 + o - 1 = o * (k / o) + o := by omega
  rw [h1, h2, Nat.mul_add_div ho, Nat.mul_add_div ho,
    Nat.div_eq_of_lt (by omega : o - 1 < o), Nat.div_self ho]

theorem ceil_div_succ_of_mod_ne_zero {k o : ℕ} (ho : 0 < o) (h : k % o ≠ 0) :
    (k + 1 + o - 1) / o = (k + o - 1) / o := by
  have hk : o * (k / o) + k % o = k := Nat.div_add_mod k o
  have hr : k % o < o := Nat.mod_lt _ ho
  have h1 : k + o - 1 = o * (k / o) + (k % o + o - 1) := by omega
  have h2 : k + 1 + o - 1 = o * (k / o) + (k % o + o) := by omega
  rw [h1, h2, Nat.mul_add_div ho, Nat.mul_add_div ho,
    Nat.div_eq_of_lt_le (by omega : 1 * o ≤ k % o + o - 1)
      (by omega : k % o + o - 1 < (1 + 1) * o),
    Nat.div_eq_of_lt_le (by omega : 1 * o ≤ k % o + o)
      (by omega : k % o + o < (1 + 1) * o)]

theorem mul_div_of_mod_eq_zero {k o : ℕ} (ho : 0 < o) (h : k % o = 0) :
    (k + o - 1) / o * o = k := by
  have hk : o * (k / o) + k % o = k := Nat.div_add_mod k o
  rw [h, Nat.add_zero] at hk
  have h1 : k + o - 1 = o * (k / o) + (o - 1) := by omega
  rw [h1, Nat.mul_add_div ho, Nat.div_eq_of_lt (by omega : o - 1 < o),
    Nat.add_zero, Nat.mul_comm]
  exact hk

theorem everyNth_range (o : ℕ) (ho : 0 < o) (m : ℕ) :
    everyNth (List.range m) o = (List.range ((m + o - 1) / o)).map (· * o) := by
  induction m with
  | zero =>
    have h0 : (0 + o - 1) / o = 0 := Nat.div_eq_of_lt (by omega)
    rw [h0]
    simp [everyNth]
  | succ k ih =>
    rw [List.range_succ]
    unfold everyNth at ih ⊢
    rw [List.enum_append, List.filter_append, List.map_append, ih,
      List.length_range, List.enumFrom_singleton]
    by_cases hmod : k % o = 0
    · have hfil : List.filter (fun p => p.1 % o == 0) [(k, k)] = [(k, k)] := by
        simp [List.filter_cons, hmod]
      rw [hfil, ceil_div_succ_of_mod_eq_zero ho hmod, List.range_succ,
        List.map_append, List.map_cons, List.map_nil, List.map_cons, List.map_nil,
        mul_div_of_mod_eq_zero ho hmod]
    · have hfil : List.filter (fun p => p.1 % o == 0) [(k, k)] = [] := by
        simp [List.filter_cons, hmod]
      rw [hfil, List.map_nil, List.append_nil, ceil_div_succ_of_mod_ne_zero ho hmod]

theorem length_flatMap_map (xs : List α) (ys : List β) (f : α → β → γ) :
    (xs.flatMap fun a => ys.map (f a)).length = xs.length * ys.length := by
  induction xs with
  | nil => simp
  | cons a xs ih => simp [ih, Nat.succ_mul, Nat.add_comm]

theorem getD_flatMap_map (xs : List α) (ys : List β) (f : α → β → γ)
    (dγ : γ) (dα : α) (dβ : β) :
    ∀ i, i < xs.length * ys.length →
      (xs.flatMap fun a => ys.map (f a)).getD i dγ =
        f (xs.getD (i / ys.length) dα) (ys.getD (i % ys.length) dβ) := by
  induction xs with
  | nil => intro i hi; simp at hi
  | cons a xs ih =>
    intro i hi
    rw [List.flatMap_cons]
    rcases Nat.lt_or_ge i ys.length with h | h
    · rw [List.getD_append _ _ _ _ (by simpa using h),
        Nat.div_eq_of_lt h, Nat.mod_eq_of_lt h, List.getD_cons_zero,
        List.getD_eq_getElem _ _ (by simpa using h),
        List.getElem_map, List.getD_eq_getElem _ _ h]
    · obtain ⟨j, rfl⟩ : ∃ j, i = j + ys.length := ⟨i - ys.length, by omega⟩
      have hy : 0 < ys.length := by
        rcases Nat.eq_zero_or_pos ys.length with h0 | h0
        · rw [h0] at hi; omega
        · exact h0
      have hj : j < xs.length * ys.length := by
        rw [List.length_cons, Nat.succ_mul] at hi; omega
      rw [List.getD_append_right _ _ _ _ (by simp), List.length_map,
        Nat.add_sub_cancel, ih j hj, Nat.add_div_right _ hy, Nat.add_mod_right,
        List.getD_cons_succ]

theorem getD_getD_replicate (ph n m j : ℕ) :
    ((List.replicate ph (List.replicate n (0 : ℤ))).getD m []).getD j 0 = 0 := by
  simp only [List.getD_eq_getElem?_getD, List.getElem?_replicate]
  split
  · simp only [Option.getD_some, List.getElem?_replicate]
    split <;> rfl
  · rfl

end ListLemmas

theorem getv_pad2 (a : A2) (h w ph pw : ℕ) (ha : Rect a h w) (i j : ℕ) :
    getv (pad2 a w ph pw) i j = if i < h ∧ j < w then getv a i j else 0 := by
  obtain ⟨hlen, hrow⟩ := ha
  unfold getv pad2
  rcases Nat.lt_or_ge i h with hi | hi
  · have hia : i < a.length := by omega
    have hi' : i < (a.map fun r => r ++ List.replicate pw 0).length := by
      simpa using hia
    rw [List.getD_append _ _ _ _ hi', List.getD_eq_getElem _ _ hi',
      List.getElem_map, List.getD_eq_getElem _ _ hia]
    have hw : a[i].length = w := hrow _ (List.getElem_mem hia)
    rcases Nat.lt_or_ge j w with hj | hj
    · rw [List.getD_append _ _ _ _ (by omega), if_pos ⟨hi, hj⟩]
    · rw [List.getD_append_right _ _ _ _ (by omega), if_neg (by omega),
        List.getD_eq_getElem?_getD, List.getElem?_getD_replicate_default_eq]
  · rw [List.getD_append_right _ _ _ _ (by simp only [List.length_map]; omega),
      if_neg (by omega), List.length_map, hlen, getD_getD_replicate]

theorem getv_crop2 (a : A2) (r c t i j : ℕ) (hi : i < t) (hj : j < t) :
    getv (crop2 a r c t) i j = getv a (r + i) (c + j) := by
  simp only [getv, crop2, List.getD_eq_getElem?_getD, List.getElem?_map,
    List.getElem?_take, List.getElem?_drop, hi, if_true]
  cases hrowq : a[r + i]? with
  | none => simp
  | some row => simp [hj]

/-- Number of rows of `crop2` (always exactly `t` when the window fits). -/
theorem crop2_rect (a : A2) (H W r c t : ℕ) (ha : Rect a H W)
    (hr : r + t ≤ H) (hc : c + t ≤ W) : Rect (crop2 a r c t) t t := by
  obtain ⟨hlen, hrow⟩ := ha
  constructor
  · simp only [crop2, List.length_map, List.length_take, List.length_drop]
    omega
  · intro x hx
    simp only [crop2, List.mem_map] at hx
    obtain ⟨row, hmem, rfl⟩ := hx
    have hrl : row.length = W :=
      hrow _ (List.mem_of_mem_drop (List.mem_of_mem_take hmem))
    simp only [List.length_take, List.length_drop]
    omega

section Helpers

variable {α : Type*} {β : Type*} {γ : Type*} {ε : Type*}

theorem le_foldr_max {x : ℕ} {l : List ℕ} (hx : x ∈ l) : x ≤ l.foldr max 0 := by
  induction l with
  | nil => cases hx
  | cons a l ih =>
    rcases List.mem_cons.mp hx with rfl | hx'
    · exact Nat.le_max_left _ _
    · exact Nat.le_trans (ih hx') (Nat.le_max_right _ _)

theorem getD_map_lt (f : α → β) (l : List α) (i : ℕ) (d : β) (d' : α)
    (h : i < l.length) : (l.map f).getD i d = f (l.getD i d') := by
  rw [List.getD_eq_getElem _ _ (by simpa using h), List.getElem_map,
    List.getD_eq_getElem _ _ h]

theorem getD_range_self (l : List α) (d : α) :
    (List.range l.length).map (fun k => l.getD k d) = l := by
  apply List.ext_getElem
  · simp
  · intro i h1 h2
    rw [List.getElem_map, List.getElem_range, List.getD_eq_getElem _ _ h2]

theorem mapEx_ok_length (f : α → Except ε β) :
    ∀ {l : List α} {r : List β}, mapEx f l = .ok r → r.length = l.length := by
  intro l
  induction l with
  | nil => intro r h; simp only [mapEx] at h; cases h; rfl
  | cons a l ih =>
    intro r h
    simp only [mapEx] at h
    cases hfa : f a with
    | error e => rw [hfa] at h; cases h
    | ok b =>
      rw [hfa] at h
      cases hrest : mapEx f l with
      | error e => rw [hrest] at h; cases h
      | ok bs =>
        rw [hrest] at h
        cases h
        simp [ih hrest]

theorem mapEx_ok_getD (f : α → Except ε β) :
    ∀ {l : List α} {r : List β}, mapEx f l = .ok r →
      ∀ i (dα : α) (dβ : β), i < l.length → f (l.getD i dα) = .ok (r.getD i dβ) := by
  intro l
  induction l with
  | nil => intro r _ i dα dβ hi; cases hi
  | cons a l ih =>
    intro r h i dα dβ hi
    simp only [mapEx] at h
    cases hfa : f a with
    | error e => rw [hfa] at h; cases h
    | ok b =>
      rw [hfa] at h
      cases hrest : mapEx f l with
      | error e => rw [hrest] at h; cases h
      | ok bs =>
        rw [hrest] at h
        cases h
        cases i with
        | zero => simpa using hfa
        | succ i => exact ih hrest i dα dβ (by simpa using hi)

theorem mapEx_ok_mem (f : α → Except ε β) :
    ∀ {l : List α} {r : List β}, mapEx f l = .ok r →
      ∀ b ∈ r, ∃ a ∈ l, f a = .ok b := by
  intro l
  induction l with
  | nil => intro r h b hb; simp only [mapEx] at h; cases h; cases hb
  | cons a l ih =>
    intro r h b hb
    simp only [mapEx] at h
    cases hfa : f a with
    | error e => rw [hfa] at h; cases h
    | ok b0 =>
      rw [hfa] at h
      cases hrest : mapEx f l with
      | error e => rw [hrest] at h; cases h
      | ok bs =>
        rw [hrest] at h
        cases h
        rcases List.mem_cons.mp hb with rfl | hb'
        · exact ⟨a, List.mem_cons_self _ _, hfa⟩
        · obtain ⟨a', ha', hfa'⟩ := ih hrest b hb'
          exact ⟨a', List.mem_cons_of_mem _ ha', hfa'⟩

theorem flatten_length_uniform (L : List (List α)) (m : ℕ)
    (h : ∀ x ∈ L, x.length = m) : L.flatten.length = L.length * m := by
  induction L with
  | nil => simp
  | cons x L ih =>
    simp only [List.flatten_cons, List.length_append, List.length_cons,
      h x (List.mem_cons_self _ _), ih (fun y hy => h y (List.mem_cons_of_mem _ hy)),
      Nat.succ_mul]
    omega

theorem flatten_getD_uniform (L : List (List α)) (m : ℕ) (d : α)
    (h : ∀ x ∈ L, x.length = m) :
    ∀ n i, n < L.length → i < m →
      L.flatten.getD (n * m + i) d = (L.getD n []).getD i d := by
  induction L with
  | nil => intro n i hn _; cases hn
  | cons x L ih =>
    intro n i hn hi
    have hx : x.length = m := h x (List.mem_cons_self _ _)
    cases n with
    | zero =>
      simp only [Nat.zero_mul, Nat.zero_add, List.flatten_cons, List.getD_cons_zero]
      exact List.getD_append _ _ _ _ (by omega)
    | succ n =>
      have hn' : n < L.length := by simpa using hn
      rw [List.flatten_cons,
        List.getD_append_right _ _ _ _ (by rw [hx]; rw [Nat.succ_mul]; omega),
        List.getD_cons_succ]
      have harith : (n + 1) * m + i - x.length = n * m + i := by
        rw [hx, Nat.succ_mul]; omega
      rw [harith]
      exact ih (fun y hy => h y (List.mem_cons_of_mem _ hy)) n i hn' hi

theorem length_flatMap_replicate (l : List α) (n : ℕ) :
    (l.flatMap fun e => List.replicate n e).length = l.length * n := by
  induction l with
  | nil => simp
  | cons a l ih => simp [ih, Nat.succ_mul, Nat.add_comm]

theorem flatMap_nil_fun (l : List α) : (l.flatMap fun _ => ([] : List β)) = [] := by
  induction l with
  | nil => rfl
  | cons a l ih => simp [ih]

theorem tile_paths_length (p : List String) (n : ℕ) :
    (tile_paths p n).length = p.length * n := by
  unfold tile_paths
  rw [length_flatMap_map, List.length_range]

end Helpers

section TilingHelpers

variable {α : Type*} {β : Type*}

theorem everyNth_range_succ (o : ℕ) (ho : 0 < o) (m : ℕ) :
    everyNth (List.range (m + 1)) o = (List.range (m / o + 1)).map (· * o) := by
  rw [everyNth_range o ho, show m + 1 + o - 1 = m + o by omega, Nat.add_div_right _ ho]

theorem pyRange_nat (m o : ℕ) :
    pyRange ((m : ℤ) + 1) o = (List.range (m / o + 1)).map (· * o) := by
  unfold pyRange
  rw [if_neg (by omega), show (m : ℤ) + 1 - 1 = (m : ℤ) by ring, Int.toNat_natCast]

theorem starts_getD (n o j : ℕ) (hj : j < n) :
    ((List.range n).map (· * o)).getD j 0 = j * o := by
  rw [List.getD_eq_getElem _ _ (by simpa using hj), List.getElem_map, List.getElem_range]

theorem n_tiles_toNat (T t o : ℕ) (ht : t ≤ T) :
    (n_tiles_of T t o).toNat = ((T - t) / o + 1) ^ 2 := by
  unfold n_tiles_of
  rw [show (T : ℤ) - t = ((T - t : ℕ) : ℤ) by rw [Nat.cast_sub ht], ← Int.ofNat_fdiv]
  norm_cast

theorem tile_array_spec (arr : A3) (h w t o T : ℕ)
    (hne : arr ≠ []) (hrect : ∀ b ∈ arr, Rect b h w) (h1 : 1 ≤ h)
    (ho : 0 < o) (ht : t ≤ T) (hh : h ≤ T) (hw : w ≤ T) :
    tile_array arr t o T =
      .ok (((List.range ((T - t) / o + 1)).map (· * o)).flatMap (fun r =>
        ((List.range ((T - t) / o + 1)).map (· * o)).map (fun c =>
          arr.map (fun b => crop2 (pad2 b w (T - h) (T - w)) r c t)))) := by
  obtain ⟨b0, rest, rfl⟩ : ∃ b0 rest, arr = b0 :: rest := by
    cases arr with
    | nil => exact absurd rfl hne
    | cons x xs => exact ⟨x, xs, rfl⟩
  have hb0 : Rect b0 h w := hrect _ (List.mem_cons_self _ _)
  have hh0 : b0.length = h := hb0.1
  obtain ⟨r0, rrest, rfl⟩ : ∃ r0 rrest, b0 = r0 :: rrest := by
    cases b0 with
    | nil => simp at hh0; omega
    | cons x xs => exact ⟨x, xs, rfl⟩
  have hw0 : r0.length = w := hb0.2 _ (List.mem_cons_self _ _)
  simp only [tile_array, List.headD_cons, hh0, hw0]
  rw [if_pos ⟨hh, hw⟩, if_pos ht, everyNth_range_succ o ho]
  simp only [List.map_map, Function.comp_def]

theorem tile_array_ok_inv (arr : A3) (t o T : ℕ) (ts : List A3) (ho : 0 < o)
    (hok : tile_array arr t o T = .ok ts) :
    t ≤ T ∧ ts.length = ((T - t) / o + 1) ^ 2 := by
  simp only [tile_array] at hok
  split at hok
  · split at hok
    · cases hok
      refine ⟨by assumption, ?_⟩
      rw [length_flatMap_map, everyNth_range_succ o ho, List.length_map,
        List.length_range, Nat.pow_two]
    · cases hok
  · cases hok

theorem i16_range (v : ℤ) : -32768 ≤ i16 v ∧ i16 v < 32768 := by
  unfold i16; omega

theorem i16_fixed_iff (v : ℤ) (h0 : 0 ≤ v) (h1 : v < 65536) :
    i16 v = v ↔ v < 32768 := by
  unfold i16; omega

theorem u16_id (v : ℤ) (h0 : 0 ≤ v) (h1 : v < 65536) : u16 v = v := by
  unfold u16; omega

theorem u16clip_id (v : ℤ) (h0 : 0 ≤ v) (h1 : v < 65536) : u16clip v = v := by
  unfold u16clip; split <;> omega

theorem mem_val_pad2 {a : A2} {w ph pw : ℕ} {row : List ℤ} {v : ℤ}
    (hrow : row ∈ pad2 a w ph pw) (hv : v ∈ row) :
    (∃ row0 ∈ a, v ∈ row0) ∨ v = 0 := by
  simp only [pad2, List.mem_append, List.mem_map, List.mem_replicate] at hrow
  rcases hrow with ⟨row0, hmem, rfl⟩ | ⟨-, rfl⟩
  · rcases List.mem_append.mp hv with h | h
    · exact .inl ⟨row0, hmem, h⟩
    · exact .inr (List.eq_of_mem_replicate h)
  · exact .inr (List.eq_of_mem_replicate hv)

theorem mem_row_crop2 {a : A2} {r c t : ℕ} {row : List ℤ}
    (hrow : row ∈ crop2 a r c t) : ∃ row0 ∈ a, row = (row0.drop c).take t := by
  simp only [crop2, List.mem_map] at hrow
  obtain ⟨row0, hmem, rfl⟩ := hrow
  exact ⟨row0, List.mem_of_mem_drop (List.mem_of_mem_take hmem), rfl⟩

theorem tile_array_val_bounded (arr : A3) (t o T : ℕ) (ts : List A3) (lo hi : ℤ)
    (hlo : lo ≤ 0) (hhi : 0 < hi)
    (harr : ∀ b ∈ arr, ∀ row ∈ b, ∀ v ∈ row, lo ≤ v ∧ v < hi)
    (hok : tile_array arr t o T = .ok ts) :
    ∀ x ∈ ts, ∀ b ∈ x, ∀ row ∈ b, ∀ v ∈ row, lo ≤ v ∧ v < hi := by
  simp only [tile_array] at hok
  split at hok
  · split at hok
    · cases hok
      intro x hx b hb row hrow v hv
      obtain ⟨r, -, hx⟩ := List.mem_flatMap.mp hx
      obtain ⟨c, -, rfl⟩ := List.mem_map.mp hx
      obtain ⟨bp, hbp, rfl⟩ := List.mem_map.mp hb
      obtain ⟨b0, hb0, rfl⟩ := List.mem_map.mp hbp
      obtain ⟨row0, hrow0, rfl⟩ := mem_row_crop2 hrow
      have hv0 : v ∈ row0 := List.mem_of_mem_take (by exact hv) |> fun hd =>
        List.mem_of_mem_drop hd
      rcases mem_val_pad2 hrow0 hv0 with ⟨rowS, hrowS, hvS⟩ | rfl
      · exact harr _ hb0 _ hrowS _ hvS
      · exact ⟨hlo, hhi⟩
    · cases hok
  · cases hok

theorem mapA3_i16_bounded (x : A3) :
    ∀ b ∈ mapA3 i16 x, ∀ row ∈ b, ∀ v ∈ row, -32768 ≤ v ∧ v < 32768 := by
  intro b hb row hrow v hv
  obtain ⟨b0, -, rfl⟩ := List.mem_map.mp hb
  obtain ⟨row0, -, rfl⟩ := List.mem_map.mp hrow
  obtain ⟨v0, -, rfl⟩ := List.mem_map.mp hv
  exact i16_range v0

theorem mapA2_i16_bounded (a : A2) :
    ∀ row ∈ mapA2 i16 a, ∀ v ∈ row, -32768 ≤ v ∧ v < 32768 := by
  intro row hrow v hv
  obtain ⟨row0, -, rfl⟩ := List.mem_map.mp hrow
  obtain ⟨v0, -, rfl⟩ := List.mem_map.mp hv
  exact i16_range v0

theorem pad2_rect (a : A2) (h w ph pw : ℕ) (ha : Rect a h w) :
    Rect (pad2 a w ph pw) (h + ph) (w + pw) := by
  obtain ⟨hlen, hrow⟩ := ha
  constructor
  · simp [pad2, hlen]
  · intro r hr
    simp only [pad2, List.mem_append, List.mem_map, List.mem_replicate] at hr
    rcases hr with ⟨r0, hmem, rfl⟩ | ⟨-, rfl⟩
    · simp [hrow r0 hmem]
    · simp

theorem mapA2_rect (f : ℤ → ℤ) (a : A2) (h w : ℕ) (ha : Rect a h w) :
    Rect (mapA2 f a) h w := by
  obtain ⟨hlen, hrow⟩ := ha
  constructor
  · simp [mapA2, hlen]
  · intro r hr
    obtain ⟨r0, hmem, rfl⟩ := List.mem_map.mp hr
    simp [hrow r0 hmem]

theorem pad2_zero (a : A2) (w : ℕ) : pad2 a w 0 0 = a := by
  simp [pad2]

theorem mapA2_u16_id (a : A2)
    (hb : ∀ r ∈ a, ∀ v ∈ r, 0 ≤ v ∧ v < 65536) : mapA2 u16 a = a := by
  unfold mapA2
  conv_rhs => rw [← List.map_id a]
  refine List.map_congr_left fun r hr => ?_
  rw [id]
  conv_rhs => rw [← List.map_id r]
  exact List.map_congr_left fun v hv => u16_id v (hb r hr v hv).1 (hb r hr v hv).2

theorem mapA3_u16_id (x : A3)
    (hb : ∀ b ∈ x, ∀ r ∈ b, ∀ v ∈ r, 0 ≤ v ∧ v < 65536) : mapA3 u16 x = x := by
  unfold mapA3
  conv_rhs => rw [← List.map_id x]
  refine List.map_congr_left fun b hbm => ?_
  rw [id]
  exact mapA2_u16_id b (hb b hbm)

theorem mapA2_u16clip_id (a : A2)
    (hb : ∀ r ∈ a, ∀ v ∈ r, 0 ≤ v ∧ v < 65536) : mapA2 u16clip a = a := by
  unfold mapA2
  conv_rhs => rw [← List.map_id a]
  refine List.map_congr_left fun r hr => ?_
  rw [id]
  conv_rhs => rw [← List.map_id r]
  exact List.map_congr_left fun v hv => u16clip_id v (hb r hr v hv).1 (hb r hr v hv).2

theorem mapA3_u16clip_id (x : A3)
    (hb : ∀ b ∈ x, ∀ r ∈ b, ∀ v ∈ r, 0 ≤ v ∧ v < 65536) : mapA3 u16clip x = x := by
  unfold mapA3
  conv_rhs => rw [← List.map_id x]
  refine List.map_congr_left fun b hbm => ?_
  rw [id]
  exact mapA2_u16clip_id b (hb b hbm)

end TilingHelpers

theorem tile_one_affine_eq (g : Geo) (T t o : ℕ) (ht : t ≤ T) :
    tile_one_affine g T t o =
      ((List.range ((T - t) / o + 1)).map (· * o)).flatMap (fun r =>
        ((List.range ((T - t) / o + 1)).map (· * o)).map (fun c =>
          affine_from_rowcol g r c)) := by
  unfold tile_one_affine
  rw [show (T : ℤ) - t + 1 = ((T - t : ℕ) : ℤ) + 1 by rw [Nat.cast_sub ht],
    pyRange_nat]

/-- C1: for every parent geotransform and every enumerated tile origin
`(row, col)`, the tile geotransform produced by `_affine_from_rowcol` (and
collected by `_tile_one_affine`) keeps the four scale/rotation terms of the
parent verbatim and replaces only the two origin terms by the parent's
pixel-to-geography mapping applied to the tile's upper-left pixel position
`(row, col)` in the padded canvas. -/
theorem tile_affine_origin (g : Geo) (T t o r c : ℕ)
    (hr : r ∈ pyRange ((T : ℤ) - t + 1) o) (hc : c ∈ pyRange ((T : ℤ) - t + 1) o) :
    affine_from_rowcol g r c ∈ tile_one_affine g T t o ∧
    affine_from_rowcol g r c =
      ⟨g.a0 + c * g.a1 + r * g.a2, g.a1, g.a2,
       g.a3 + c * g.a4 + r * g.a5, g.a4, g.a5⟩ :=
  ⟨List.mem_flatMap.mpr ⟨r, hr, List.mem_map.mpr ⟨c, hc, rfl⟩⟩, rfl⟩

theorem tile_affine_origin_witness :
    affine_from_rowcol gW 2 0 ∈ tile_one_affine gW 4 2 2 ∧
    affine_from_rowcol gW 2 0 = ⟨100, 2, 0, 46, 0, -2⟩ := by
  have h := tile_affine_origin gW 4 2 2 2 0
    (by with_unfolding_all decide) (by with_unfolding_all decide)
  refine ⟨h.1, ?_⟩
  rw [h.2]
  with_unfolding_all decide

/-- C2: for an item no larger than the target canvas, the `i`-th tile of
`_tile_array` (0-indexed, row-major: window rows outer, window columns
inner) is the `tile_size` x `tile_size` crop of the zero-padded
`target_size` x `target_size` canvas at row offset
`overlap * (i / n_side)` and column offset `overlap * (i % n_side)` with
`n_side = (target_size - tile_size) / overlap + 1`, and the `i`-th entry
of `_tile_one_affine` is derived from exactly the same origin, so the
image/label data and the per-tile metadata agree on the enumeration
order. -/
theorem tile_array_rowmajor (arr : A3) (h w t o T : ℕ) (g : Geo)
    (hne : arr ≠ []) (hrect : ∀ b ∈ arr, Rect b h w) (h1 : 1 ≤ h)
    (ho : 0 < o) (ht : t ≤ T) (hh : h ≤ T) (hw : w ≤ T) :
    ∃ ts, tile_array arr t o T = .ok ts ∧
      ts.length = ((T - t) / o + 1) ^ 2 ∧
      (tile_one_affine g T t o).length = ((T - t) / o + 1) ^ 2 ∧
      ∀ i, i < ((T - t) / o + 1) ^ 2 →
        ts.getD i [] = arr.map (fun b =>
          crop2 (pad2 b w (T - h) (T - w))
            (o * (i / ((T - t) / o + 1))) (o * (i % ((T - t) / o + 1))) t) ∧
        (tile_one_affine g T t o).getD i ⟨0, 0, 0, 0, 0, 0⟩ =
          affine_from_rowcol g (o * (i / ((T - t) / o + 1)))
            (o * (i % ((T - t) / o + 1))) := by
  have hn : 0 < (T - t) / o + 1 := Nat.succ_pos _
  have hlen : ((List.range ((T - t) / o + 1)).map (· * o)).length =
      (T - t) / o + 1 := by simp
  refine ⟨_, tile_array_spec arr h w t o T hne hrect h1 ho ht hh hw, ?_, ?_, ?_⟩
  · rw [length_flatMap_map, hlen, Nat.pow_two]
  · rw [tile_one_affine_eq g T t o ht, length_flatMap_map, hlen, Nat.pow_two]
  · intro i hi
    have hi' : i < ((List.range ((T - t) / o + 1)).map (· * o)).length *
        ((List.range ((T - t) / o + 1)).map (· * o)).length := by
      rw [hlen, ← Nat.pow_two]; exact hi
    have hdiv : i / ((T - t) / o + 1) < (T - t) / o + 1 := by
      rw [Nat.pow_two] at hi
      exact Nat.div_lt_of_lt_mul hi
    have hmod : i % ((T - t) / o + 1) < (T - t) / o + 1 := Nat.mod_lt _ hn
    constructor
    · rw [getD_flatMap_map _ _ _ _ 0 0 i hi', hlen,
        starts_getD _ _ _ hdiv, starts_getD _ _ _ hmod,
        Nat.mul_comm o, Nat.mul_comm o]
    · rw [tile_one_affine_eq g T t o ht,
        getD_flatMap_map _ _ _ _ 0 0 i hi', hlen,
        starts_getD _ _ _ hdiv, starts_getD _ _ _ hmod,
        Nat.mul_comm o, Nat.mul_comm o]

theorem tile_array_rowmajor_witness :
    ∃ ts, tile_array [[[1, 2], [3, 4]]] 1 1 2 = .ok ts ∧
      ts.length = ((2 - 1) / 1 + 1) ^ 2 ∧
      (tile_one_affine gW 2 1 1).length = ((2 - 1) / 1 + 1) ^ 2 ∧
      ∀ i, i < ((2 - 1) / 1 + 1) ^ 2 →
        ts.getD i [] = [[[1, 2], [3, 4]]].map (fun b =>
          crop2 (pad2 b 2 (2 - 2) (2 - 2))
            (1 * (i / ((2 - 1) / 1 + 1))) (1 * (i % ((2 - 1) / 1 + 1))) 1) ∧
        (tile_one_affine gW 2 1 1).getD i ⟨0, 0, 0, 0, 0, 0⟩ =
          affine_from_rowcol gW (1 * (i / ((2 - 1) / 1 + 1)))
            (1 * (i % ((2 - 1) / 1 + 1))) :=
  tile_array_rowmajor [[[1, 2], [3, 4]]] 2 2 1 1 2 gW (by decide) (by decide)
    (by decide) (by decide) (by decide) (by decide) (by decide)

theorem tile_img_h5_ok_inv (s : Store) (t o T : ℕ) (st : TiledStore)
    (hok : tile_img_h5 s t o T = .ok st) :
    ∃ imgT lblT,
      o ≠ 0 ∧
      mapEx (fun x => tile_array x t o T) (s.img.map (mapA3 i16)) = .ok imgT ∧
      mapEx (fun x => tile_array x t o T)
        (s.lbl.map (fun l => [mapA2 i16 l])) = .ok lblT ∧
      st.img = imgT.flatten ∧
      st.lbl = lblT.flatten ∧
      st.path = tile_paths s.path (n_tiles_of T t o).toNat ∧
      st.epsg = s.epsg.flatMap
        (fun e => List.replicate (n_tiles_of T t o).toNat e) ∧
      st.affine = s.affine.flatMap (fun g => tile_one_affine g T t o) ∧
      st.img_means = s.img_means.map i16ofRat ∧
      st.img_stds = s.img_stds.map i16ofRat ∧
      st.path.length = s.img.length * (n_tiles_of T t o).toNat ∧
      st.epsg.length = s.img.length * (n_tiles_of T t o).toNat ∧
      st.affine.length = s.img.length * (n_tiles_of T t o).toNat := by
  simp only [tile_img_h5] at hok
  split at hok
  · cases hok
  · rename_i ho
    split at hok
    · cases hok
    · split at hok
      · rename_i hpath
        split at hok
        · rename_i hepsg
          split at hok
          · rename_i haff
            split at hok
            · rename_i imgT lblT himg hlbl
              cases hok
              exact ⟨imgT, lblT, ho, himg, hlbl, rfl, rfl, rfl, rfl, rfl,
                rfl, rfl, hpath, hepsg, haff⟩
            · cases hok
          · cases hok
        · cases hok
      · cases hok

/-- C3: on success, the tiled store's image rows, label rows, identifiers,
EPSG entries and geotransform entries all have leading length exactly
`N_items * n_tiles` (the metadata lengths are enforced by the row-count
asserts, which the model runs - and the code reaches - before any output
is written; `Except.error` models aborting without a written store). -/
theorem tiled_store_lengths (s : Store) (t o T : ℕ) (st : TiledStore)
    (hlbl : s.lbl.length = s.img.length)
    (hok : tile_img_h5 s t o T = .ok st) :
    st.img.length = s.img.length * (n_tiles_of T t o).toNat ∧
    st.lbl.length = s.img.length * (n_tiles_of T t o).toNat ∧
    st.path.length = s.img.length * (n_tiles_of T t o).toNat ∧
    st.epsg.length = s.img.length * (n_tiles_of T t o).toNat ∧
    st.affine.length = s.img.length * (n_tiles_of T t o).toNat := by
  obtain ⟨imgT, lblT, ho, himg, hlblT, heimg, helbl, -, -, -, -, -,
    hplen, helen, halen⟩ := tile_img_h5_ok_inv s t o T st hok
  have himg_len : imgT.length = s.img.length := by
    have h := mapEx_ok_length _ himg; simpa using h
  have hlbl_len : lblT.length = s.lbl.length := by
    have h := mapEx_ok_length _ hlblT; simpa using h
  rcases hsi : s.img with _ | ⟨x, xs⟩
  · have himgT0 : imgT = [] := by
      refine List.length_eq_zero.mp ?_
      rw [himg_len, hsi]; rfl
    have hlblT0 : lblT = [] := by
      refine List.length_eq_zero.mp ?_
      rw [hlbl_len, hlbl, hsi]; rfl
    rw [hsi] at hplen helen halen
    refine ⟨?_, ?_, hplen, helen, halen⟩
    · simp [heimg, himgT0]
    · simp [helbl, hlblT0]
  · have hpos : 0 < s.img.length := by rw [hsi]; simp
    have h0 := mapEx_ok_getD _ himg 0 [] [] (by simpa using hpos)
    have ht : t ≤ T :=
      (tile_array_ok_inv _ t o T _ (Nat.pos_of_ne_zero ho) h0).1
    have hm : ∀ y ∈ imgT, y.length = ((T - t) / o + 1) ^ 2 := by
      intro y hy
      obtain ⟨a, -, ha⟩ := mapEx_ok_mem _ himg y hy
      exact (tile_array_ok_inv _ t o T _ (Nat.pos_of_ne_zero ho) ha).2
    have hm' : ∀ y ∈ lblT, y.length = ((T - t) / o + 1) ^ 2 := by
      intro y hy
      obtain ⟨a, -, ha⟩ := mapEx_ok_mem _ hlblT y hy
      exact (tile_array_ok_inv _ t o T _ (Nat.pos_of_ne_zero ho) ha).2
    rw [hsi] at hplen helen halen
    refine ⟨?_, ?_, hplen, helen, halen⟩
    · rw [heimg, flatten_length_uniform imgT _ hm, himg_len,
        n_tiles_toNat T t o ht, hsi]
    · rw [helbl, flatten_length_uniform lblT _ hm', hlbl_len, hlbl,
        n_tiles_toNat T t o ht, hsi]

theorem tiled_store_lengths_witness :
    sdemoTiled.img.length = sdemo.img.length * (n_tiles_of 1 1 1).toNat ∧
    sdemoTiled.lbl.length = sdemo.img.length * (n_tiles_of 1 1 1).toNat ∧
    sdemoTiled.path.length = sdemo.img.length * (n_tiles_of 1 1 1).toNat ∧
    sdemoTiled.epsg.length = sdemo.img.length * (n_tiles_of 1 1 1).toNat ∧
    sdemoTiled.affine.length = sdemo.img.length * (n_tiles_of 1 1 1).toNat :=
  tiled_store_lengths sdemo 1 1 1 sdemoTiled (by decide)
    (by with_unfolding_all decide)

theorem n_tiles_pos_of_oversize (T t o : ℕ) (ho : 0 < o)
    (hover : (T : ℤ) + o < t) : 1 ≤ (n_tiles_of T t o).toNat := by
  unfold n_tiles_of
  have hfd : ((T : ℤ) - t).fdiv o < -1 := by
    rw [Int.fdiv_eq_ediv _ (by positivity)]
    rw [Int.ediv_lt_iff_lt_mul (by exact_mod_cast ho)]
    omega
  have hsq : 1 ≤ (((T : ℤ) - t).fdiv o + 1) ^ 2 := by
    nlinarith [sq_nonneg (((T : ℤ) - t).fdiv o + 2)]
  omega

/-- C8 counterexample: tiling with `tile_size = 512 > target_size = 256`
does not raise any validation error; the run aborts with the
affine-row-count `assert` (the spec's ConsistencyError) instead. -/
theorem oversize_tile_no_validation_cex :
    tile_img_h5 sdemo 512 128 256 = .error .consistency := by
  with_unfolding_all decide

/-- C8 amended: the Tiler performs no `tile_size ≤ target_size`
validation.  When `tile_size` exceeds `target_size + overlap` and the
store is non-empty, the run fails with the affine row-count consistency
`assert` - not a ValidationError - before any output is written. -/
theorem oversize_tile_consistency (s : Store) (t o T : ℕ)
    (hpath : s.path ≠ []) (ho : 0 < o) (hover : (T : ℤ) + o < t) :
    tile_img_h5 s t o T = .error .consistency := by
  have haffone : ∀ g : Geo, tile_one_affine g T t o = [] := by
    intro g
    unfold tile_one_affine pyRange
    rw [if_pos (by omega : (T : ℤ) - t + 1 ≤ 0)]
    rfl
  have haffnil : (s.affine.flatMap fun g => tile_one_affine g T t o) = [] := by
    rw [show (fun g => tile_one_affine g T t o) = (fun _ => ([] : List Geo))
      from funext haffone, flatMap_nil_fun]
  have hnt : 1 ≤ (n_tiles_of T t o).toNat := n_tiles_pos_of_oversize T t o ho hover
  simp only [tile_img_h5]
  rw [if_neg (by omega : ¬ o = 0), if_neg (by simpa using hpath)]
  split
  · rename_i hpathlen
    split
    · rename_i hepsg
      split
      · rename_i haff
        exfalso
        rw [haffnil] at haff
        have hplen : (tile_paths s.path (n_tiles_of T t o).toNat).length =
            s.path.length * (n_tiles_of T t o).toNat := tile_paths_length _ _
        have hppos : 1 ≤ s.path.length :=
          Nat.pos_of_ne_zero (fun h0 => hpath (List.length_eq_zero.mp h0))
        rw [hplen] at hpathlen
        have himgpos : 1 ≤ s.img.length := by
          by_contra hcon
          have h0 : s.img.length = 0 := by omega
          rw [h0] at hpathlen
          have : 1 ≤ s.path.length * (n_tiles_of T t o).toNat :=
            Nat.one_le_iff_ne_zero.mpr (Nat.mul_ne_zero (by omega) (by omega))
          omega
        have : (([] : List Geo)).length = s.img.length * (n_tiles_of T t o).toNat :=
          haff
        simp only [List.length_nil] at this
        have : 1 ≤ s.img.length * (n_tiles_of T t o).toNat :=
          Nat.one_le_iff_ne_zero.mpr (Nat.mul_ne_zero (by omega) (by omega))
        omega
      · rfl
    · rfl
  · rfl

theorem oversize_tile_consistency_witness :
    tile_img_h5 sdemo 600 128 256 = .error .consistency :=
  oversize_tile_consistency sdemo 600 128 256 (by decide) (by decide) (by decide)

/-- C9: `tile_img_h5` casts the source `/img`, `/lbl`, `/img_means` and
`/img_stds` datasets to `int16` before tiling and persisting: the
statistics vectors are persisted as their truncated-and-wrapped `int16`
images, every pixel of the tiled store lies in the `int16` range, a
`uint16` value is unchanged by the cast exactly when it is below `32768`,
and a fractional or `≥ 32768` band statistic is never reproduced
exactly. -/
theorem tiler_int16_cast :
    (∀ (s : Store) (t o T : ℕ) (st : TiledStore),
      tile_img_h5 s t o T = .ok st →
        st.img_means = s.img_means.map i16ofRat ∧
        st.img_stds = s.img_stds.map i16ofRat ∧
        (∀ x ∈ st.img, ∀ b ∈ x, ∀ row ∈ b, ∀ v ∈ row,
          -32768 ≤ v ∧ v < 32768) ∧
        (∀ x ∈ st.lbl, ∀ b ∈ x, ∀ row ∈ b, ∀ v ∈ row,
          -32768 ≤ v ∧ v < 32768)) ∧
    (∀ v : ℤ, 0 ≤ v → v < 65536 → (i16 v = v ↔ v < 32768)) ∧
    (∀ q : ℚ, q.den ≠ 1 → (i16ofRat q : ℚ) ≠ q) ∧
    (∀ q : ℚ, 32768 ≤ q → (i16ofRat q : ℚ) ≠ q) := by
  refine ⟨?_, ?_, ?_, ?_⟩
  · intro s t o T st hok
    obtain ⟨imgT, lblT, -, himg, hlblT, heimg, helbl, -, -, -, hmean, hstd,
      -, -, -⟩ := tile_img_h5_ok_inv s t o T st hok
    refine ⟨hmean, hstd, ?_, ?_⟩
    · intro x hx b hb row hrow v hv
      rw [heimg] at hx
      obtain ⟨ts, hts, hxts⟩ := List.mem_flatten.mp hx
      obtain ⟨a, ha, hta⟩ := mapEx_ok_mem _ himg ts hts
      obtain ⟨a0, -, rfl⟩ := List.mem_map.mp ha
      exact tile_array_val_bounded _ t o T ts (-32768) 32768 (by omega)
        (by omega) (mapA3_i16_bounded a0) hta x hxts b hb row hrow v hv
    · intro x hx b hb row hrow v hv
      rw [helbl] at hx
      obtain ⟨ts, hts, hxts⟩ := List.mem_flatten.mp hx
      obtain ⟨a, ha, hta⟩ := mapEx_ok_mem _ hlblT ts hts
      obtain ⟨l0, -, rfl⟩ := List.mem_map.mp ha
      refine tile_array_val_bounded _ t o T ts (-32768) 32768 (by omega)
        (by omega) ?_ hta x hxts b hb row hrow v hv
      intro b0 hb0 row0 hrow0 v0 hv0
      rcases List.mem_singleton.mp hb0 with rfl
      exact mapA2_i16_bounded l0 row0 hrow0 v0 hv0
  · intro v h0 h1
    unfold i16
    omega
  · intro q hden heq
    apply hden
    rw [← heq, Rat.den_intCast]
  · intro q hq heq
    have h1 := (i16_range (ratTrunc q)).2
    have h2 : (i16ofRat q : ℚ) < 32768 := by exact_mod_cast h1
    rw [heq] at h2
    linarith

theorem tiler_int16_cast_witness :
    sdemoTiled.img_means = sdemo.img_means.map i16ofRat ∧
    (i16 40000 = 40000 ↔ (40000 : ℤ) < 32768) ∧
    (i16ofRat (1 / 2) : ℚ) ≠ 1 / 2 ∧
    (i16ofRat 40000 : ℚ) ≠ 40000 := by
  have h := tiler_int16_cast
  exact ⟨(h.1 sdemo 1 1 1 sdemoTiled (by with_unfolding_all decide)).1,
    h.2.1 40000 (by decide) (by decide),
    h.2.2.1 (1 / 2) (by with_unfolding_all decide),
    h.2.2.2 40000 (by with_unfolding_all decide)⟩

theorem load_img_ok (it : RasterItem) (mw mh : ℕ) (bs : List ℕ)
    (hbs : ∀ b ∈ bs, 1 ≤ b ∧ b ≤ it.img.length)
    (hh : it.h ≤ mh) (hw : it.w ≤ mw) :
    load_img it mw mh bs =
      .ok ((bs.map (fun b => it.img.getD (b - 1) [])).map
        (fun b => pad2 b it.w (mh - it.h) (mw - it.w))) := by
  unfold load_img selectBands
  rw [if_pos hbs]
  simp only
  rw [if_pos ⟨hh, hw⟩]

theorem load_lbl_arr_ok (it : RasterItem) (mw mh : ℕ)
    (hh : it.lh ≤ mh) (hw : it.lw ≤ mw) :
    load_lbl_arr it mw mh =
      .ok (pad2 it.lbl it.lw (mh - it.lh) (mw - it.lw)) := by
  unfold load_lbl_arr
  rw [if_pos ⟨hh, hw⟩]

theorem canvasH_le (items : List RasterItem) (it : RasterItem) (hmem : it ∈ items) :
    it.h ≤ canvasH items :=
  le_foldr_max (List.mem_map.mpr ⟨it, hmem, rfl⟩)

theorem canvasW_le (items : List RasterItem) (it : RasterItem) (hmem : it ∈ items) :
    it.w ≤ canvasW items :=
  le_foldr_max (List.mem_map.mpr ⟨it, hmem, rfl⟩)

/-- C5: for every probed item, `_load_img` pads each selected band on the
bottom and right edges only to the canvas `(max height, max width)` of the
set: pixel `(c, i, j)` of the packed row equals the source pixel of
selected band `c` at `(i, j)` inside the item's extent and `0` outside it,
and `_load_lbl` pads the single label band identically. -/
theorem load_img_pads (items : List RasterItem) (it : RasterItem) (bs : List ℕ)
    (hmem : it ∈ items)
    (hrect : ∀ b ∈ it.img, Rect b it.h it.w)
    (hlrect : Rect it.lbl it.lh it.lw)
    (hbs : ∀ b ∈ bs, 1 ≤ b ∧ b ≤ it.img.length)
    (hlh : it.lh ≤ canvasH items) (hlw : it.lw ≤ canvasW items)
    (c i j : ℕ) (hc : c < bs.length) :
    ∃ a lb, load_img it (canvasW items) (canvasH items) bs = .ok a ∧
      load_lbl_arr it (canvasW items) (canvasH items) = .ok lb ∧
      getv (a.getD c []) i j =
        (if i < it.h ∧ j < it.w
         then getv (it.img.getD (bs.getD c 1 - 1) []) i j else 0) ∧
      getv lb i j =
        (if i < it.lh ∧ j < it.lw then getv it.lbl i j else 0) := by
  have hhle : it.h ≤ canvasH items := canvasH_le items it hmem
  have hwle : it.w ≤ canvasW items := canvasW_le items it hmem
  refine ⟨_, _, load_img_ok it _ _ bs hbs hhle hwle,
    load_lbl_arr_ok it _ _ hlh hlw, ?_, ?_⟩
  · have hc' : c < (bs.map (fun b => it.img.getD (b - 1) [])).length := by
      simpa using hc
    rw [getD_map_lt _ _ c [] [] hc', getD_map_lt _ _ c [] 1 hc]
    have hbmem : bs.getD c 1 ∈ bs := by
      rw [List.getD_eq_getElem _ _ hc]
      exact List.getElem_mem hc
    obtain ⟨hb1, hb2⟩ := hbs _ hbmem
    have hband : it.img.getD (bs.getD c 1 - 1) [] ∈ it.img := by
      rw [List.getD_eq_getElem _ _ (by omega)]
      exact List.getElem_mem (by omega)
    exact getv_pad2 _ it.h it.w _ _ (hrect _ hband) i j
  · exact getv_pad2 _ it.lh it.lw _ _ hlrect i j

theorem load_img_pads_witness :
    ∃ a lb, load_img itWide (canvasW [itWide]) (canvasH [itWide]) [1] = .ok a ∧
      load_lbl_arr itWide (canvasW [itWide]) (canvasH [itWide]) = .ok lb ∧
      getv (a.getD 0 []) 1 2 =
        (if 1 < itWide.h ∧ 2 < itWide.w
         then getv (itWide.img.getD (([1] : List ℕ).getD 0 1 - 1) []) 1 2 else 0) ∧
      getv lb 1 2 =
        (if 1 < itWide.lh ∧ 2 < itWide.lw then getv itWide.lbl 1 2 else 0) :=
  load_img_pads [itWide] itWide [1] (by decide) (by decide) (by decide)
    (by decide) (by decide) (by decide) 0 1 2 (by decide)

theorem foldr_max_const (l : List ℕ) (B : ℕ) (hne : l ≠ [])
    (hall : ∀ b ∈ l, b = B) : l.foldr max 0 = B := by
  induction l with
  | nil => exact absurd rfl hne
  | cons a l ih =>
    have ha : a = B := hall a (List.mem_cons_self _ _)
    cases l with
    | nil => simp [ha]
    | cons a' l' =>
      rw [List.foldr_cons, ih (by simp)
        (fun b hb => hall b (List.mem_cons_of_mem _ hb)), ha, Nat.max_self]

/-- C6 counterexample: with an explicitly supplied EMPTY band list and
items whose band counts differ (1 and 2), no band-count validation error
is raised: Python's `if image_bands:` treats `[]` as absent, the selection
defaults to `1..max`, and the run only fails later, with a rasterio read
error while the store is being written. -/
theorem empty_band_list_cex :
    convert_img_to_h5 [itB1, itB2] (some []) = .error .readError := by
  with_unfolding_all decide

/-- C6 amended: with a NONEMPTY explicit band-index list, packing fails
with BandCountMismatchError when the probed band counts are not all
identical, and with the band-index ValidationError when the maximum
requested index exceeds the shared band count - in both cases during the
upfront `assert`s, before any store data is written; when no band list is
supplied, the selection defaults to bands `1..max`. -/
theorem band_validation (items : List RasterItem) (l : List ℕ) (hl : l ≠ []) :
    ((∃ it1 ∈ items, ∃ it2 ∈ items, it1.img.length ≠ it2.img.length) →
      convert_img_to_h5 items (some l) = .error .bandCountMismatch) ∧
    (∀ B : ℕ, (∀ it ∈ items, it.img.length = B) → items ≠ [] →
      B < l.foldr max 0 →
      convert_img_to_h5 items (some l) = .error .bandIndexError) ∧
    (∀ bands : List ℕ,
      band_selection bands none =
        .ok ((List.range (bands.foldr max 0)).map (· + 1))) := by
  refine ⟨?_, ?_, fun _ => rfl⟩
  · rintro ⟨it1, h1, it2, h2, hne⟩
    have hbsel : band_selection (items.map (fun it => it.img.length)) (some l) =
        .error .bandCountMismatch := by
      simp only [band_selection]
      rw [if_neg (by simpa [List.isEmpty_iff] using hl)]
      rw [if_neg ?_]
      rintro ⟨-, hall⟩
      have e1 := hall _ (List.mem_map.mpr ⟨it1, h1, rfl⟩)
      have e2 := hall _ (List.mem_map.mpr ⟨it2, h2, rfl⟩)
      exact hne (e1.trans e2.symm)
    simp only [convert_img_to_h5]
    rw [if_neg (by simpa [List.isEmpty_iff] using List.ne_nil_of_mem h1), hbsel]
  · intro B hB hne hgt
    have hbne : items.map (fun it => it.img.length) ≠ [] := by
      simpa using hne
    have hall : ∀ b ∈ items.map (fun it => it.img.length), b =
        (items.map (fun it => it.img.length)).headD 0 := by
      intro b hb
      obtain ⟨it, hit, rfl⟩ := List.mem_map.mp hb
      cases items with
      | nil => exact absurd rfl hne
      | cons it0 rest =>
        simp only [List.map_cons, List.headD_cons]
        rw [hB it hit, hB it0 (List.mem_cons_self _ _)]
    have hmax : (items.map (fun it => it.img.length)).foldr max 0 = B := by
      refine foldr_max_const _ B hbne ?_
      intro b hb
      obtain ⟨it, hit, rfl⟩ := List.mem_map.mp hb
      exact hB it hit
    have hbsel : band_selection (items.map (fun it => it.img.length)) (some l) =
        .error .bandIndexError := by
      simp only [band_selection]
      rw [if_neg (by simpa [List.isEmpty_iff] using hl), if_pos ⟨hbne, hall⟩,
        if_neg (by rw [hmax]; omega)]
    simp only [convert_img_to_h5]
    rw [if_neg (by simpa [List.isEmpty_iff] using hne), hbsel]

theorem band_validation_witness :
    convert_img_to_h5 [itB1, itB2] (some [1]) = .error .bandCountMismatch ∧
    convert_img_to_h5 [itB1, itB1] (some [2]) = .error .bandIndexError ∧
    band_selection [1, 2] none = .ok ((List.range (([1, 2] : List ℕ).foldr max 0)).map (· + 1)) := by
  refine ⟨?_, ?_, ?_⟩
  · exact (band_validation [itB1, itB2] [1] (by decide)).1
      ⟨itB1, by with_unfolding_all decide, itB2, by with_unfolding_all decide,
       by with_unfolding_all decide⟩
  · exact (band_validation [itB1, itB1] [2] (by decide)).2.1 1
      (by with_unfolding_all decide) (by with_unfolding_all decide) (by decide)
  · exact (band_validation [itB1] [1] (by decide)).2.2 [1, 2]

theorem convert_ok_inv (items : List RasterItem) (bsOpt : Option (List ℕ))
    (st : Store) (hok : convert_img_to_h5 items bsOpt = .ok st) :
    ∃ sel imgs lbls,
      band_selection (items.map (fun it => it.img.length)) bsOpt = .ok sel ∧
      mapEx (fun it => load_img it (canvasW items) (canvasH items) sel) items =
        .ok imgs ∧
      mapEx (fun it => load_lbl_arr it (canvasW items) (canvasH items)) items =
        .ok lbls ∧
      st.img = imgs.map (mapA3 u16clip) ∧
      st.lbl = lbls.map (mapA2 u16clip) ∧
      st.path = items.map (·.stem) ∧
      st.epsg = items.map (·.epsg) ∧
      st.affine = items.map (·.geo) ∧
      st.img_means = band_means (imgs.map (mapA3 u16clip)) sel.length
        (canvasH items) (canvasW items) ∧
      st.img_stds = band_stds (imgs.map (mapA3 u16clip)) sel.length
        (canvasH items) (canvasW items) := by
  simp only [convert_img_to_h5] at hok
  split at hok
  · cases hok
  · split at hok
    · cases hok
    · rename_i sel hsel
      split at hok
      · rename_i imgs lbls himgs hlbls
        cases hok
        exact ⟨sel, imgs, lbls, hsel, himgs, hlbls, rfl, rfl, rfl, rfl, rfl,
          rfl, rfl⟩
      · cases hok

theorem load_img_ok_inv (it : RasterItem) (mw mh : ℕ) (bs : List ℕ) (a : A3)
    (hok : load_img it mw mh bs = .ok a) :
    (∀ b ∈ bs, 1 ≤ b ∧ b ≤ it.img.length) ∧ it.h ≤ mh ∧ it.w ≤ mw ∧
    a = (bs.map (fun b => it.img.getD (b - 1) [])).map
      (fun b => pad2 b it.w (mh - it.h) (mw - it.w)) := by
  by_cases h1 : ∀ b ∈ bs, 1 ≤ b ∧ b ≤ it.img.length
  · by_cases h2 : it.h ≤ mh ∧ it.w ≤ mw
    · rw [load_img_ok it mw mh bs h1 h2.1 h2.2] at hok
      cases hok
      exact ⟨h1, h2.1, h2.2, rfl⟩
    · simp [load_img, selectBands, if_pos h1, if_neg h2] at hok
  · simp [load_img, selectBands, if_neg h1] at hok

theorem all_bands_self (img : A3) :
    ((List.range img.length).map (· + 1)).map
      (fun b => img.getD (b - 1) []) = img := by
  rw [List.map_map]
  have hfun : ((fun b => img.getD (b - 1) []) ∘ (· + 1)) =
      fun k => img.getD k [] := by
    funext k
    simp
  rw [hfun, getD_range_self]

/-- C4 counterexample: packing the ten-item set `cexItems` (whose head is
a 1 x 1 raster with pixel value 70000 while the others are 2 x 2) and
reconstructing row 0 yields width 2 - the padded canvas width, not the
original width 1 - and pixel value 65535 instead of 70000 (HDF5 clips
the out-of-range value at the uint16 upper bound when the source-dtype
chunk is written into the store), so the round trip is not the
identity. -/
theorem pack_reconstruct_cex :
    ((convert_img_to_h5 cexItems none).map (fun st =>
      ((create_raster st 0).w, getv ((create_raster st 0).img.headD []) 0 0))) =
      .ok (2, 65535) ∧
    (cexItems.headD itBig).w = 1 ∧
    getv ((cexItems.headD itBig).img.headD []) 0 0 = 70000 := by
  with_unfolding_all decide

/-- C4 amended: provided every raster of the set already has the canvas
dimensions (height = max height, width = max width, labels sized like
their images) and every pixel value is representable in the store's
`uint16` dtype, converting the set to a store and reconstructing each row
reproduces pixel-identical image and label arrays and identical width,
height, EPSG code and geotransform. -/
theorem pack_reconstruct_roundtrip (items : List RasterItem) (st : Store)
    (hconv : convert_img_to_h5 items none = .ok st)
    (hwf : ∀ it ∈ items,
      1 ≤ it.img.length ∧ 1 ≤ it.h ∧
      (∀ b ∈ it.img, Rect b it.h it.w) ∧ Rect it.lbl it.lh it.lw ∧
      it.lh = it.h ∧ it.lw = it.w ∧
      (∀ b ∈ it.img, ∀ r ∈ b, ∀ v ∈ r, 0 ≤ v ∧ v < 65536) ∧
      (∀ r ∈ it.lbl, ∀ v ∈ r, 0 ≤ v ∧ v < 65536))
    (hcanvas : ∀ it ∈ items, it.h = canvasH items ∧ it.w = canvasW items) :
    ∀ i (dflt : RasterItem), i < items.length →
      (create_raster st i).img = (items.getD i dflt).img ∧
      (create_raster st i).lbl = (items.getD i dflt).lbl ∧
      (create_raster st i).h = (items.getD i dflt).h ∧
      (create_raster st i).w = (items.getD i dflt).w ∧
      (create_raster st i).epsg = (items.getD i dflt).epsg ∧
      (create_raster st i).geo = (items.getD i dflt).geo := by
  obtain ⟨sel, imgs, lbls, hsel, himgs, hlbls, heimg, helbl, hepath, heepsg,
    heaff, -, -⟩ := convert_ok_inv items none st hconv
  intro i dflt hi
  have hmem : items.getD i dflt ∈ items := by
    rw [List.getD_eq_getElem _ _ hi]
    exact List.getElem_mem hi
  obtain ⟨hB1, hH1, hrect, hlrect, hlh, hlw, hbv, hlv⟩ := hwf _ hmem
  obtain ⟨hch, hcw⟩ := hcanvas _ hmem
  have hselval : sel =
      (List.range ((items.map (fun it => it.img.length)).foldr max 0)).map
        (· + 1) := by
    simp only [band_selection] at hsel
    cases hsel
    rfl
  have hload := mapEx_ok_getD _ himgs i dflt [] hi
  obtain ⟨hbsv, -, -, haval⟩ := load_img_ok_inv _ _ _ _ _ hload
  have hBle : (items.getD i dflt).img.length ≤
      (items.map (fun it => it.img.length)).foldr max 0 :=
    le_foldr_max (List.mem_map.mpr ⟨_, hmem, rfl⟩)
  have hBmem : (items.map (fun it => it.img.length)).foldr max 0 ∈ sel := by
    rw [hselval]
    exact List.mem_map.mpr ⟨(items.map (fun it => it.img.length)).foldr max 0 - 1,
      List.mem_range.mpr (by omega), by omega⟩
  have hBeq : (items.getD i dflt).img.length =
      (items.map (fun it => it.img.length)).foldr max 0 :=
    Nat.le_antisymm hBle (hbsv _ hBmem).2
  have himgval : imgs.getD i [] = (items.getD i dflt).img := by
    rw [haval, hselval, ← hBeq, all_bands_self, hch, hcw,
      Nat.sub_self, Nat.sub_self]
    have hpadid : ∀ b ∈ (items.getD i dflt).img,
        pad2 b (items.getD i dflt).w 0 0 = b := fun b _ => pad2_zero _ _
    calc ((items.getD i dflt).img.map
            (fun b => pad2 b (items.getD i dflt).w 0 0))
        = (items.getD i dflt).img.map id :=
          List.map_congr_left (fun b hb => hpadid b hb)
      _ = (items.getD i dflt).img := List.map_id _
  have hlload := mapEx_ok_getD _ hlbls i dflt [] hi
  rw [load_lbl_arr_ok _ _ _ (by rw [hlh, hch]) (by rw [hlw, hcw])] at hlload
  have hlblval : lbls.getD i [] = (items.getD i dflt).lbl := by
    have h := (Except.ok.injEq _ _).mp hlload
    rw [← h, hlh, hlw, hch, hcw, Nat.sub_self, Nat.sub_self, pad2_zero]
  have hilen : i < imgs.length := by rw [mapEx_ok_length _ himgs]; exact hi
  have hllen : i < lbls.length := by rw [mapEx_ok_length _ hlbls]; exact hi
  have hstimg : st.img.getD i [] = (items.getD i dflt).img := by
    rw [heimg, getD_map_lt _ _ i [] [] hilen, himgval, mapA3_u16clip_id _ hbv]
  have hstlbl : st.lbl.getD i [] = (items.getD i dflt).lbl := by
    rw [helbl, getD_map_lt _ _ i [] [] hllen, hlblval, mapA2_u16clip_id _ hlv]
  obtain ⟨b0, brest, hbeq⟩ : ∃ b0 brest,
      (items.getD i dflt).img = b0 :: brest := by
    cases hx : (items.getD i dflt).img with
    | nil => rw [hx] at hB1; cases hB1
    | cons y ys => exact ⟨y, ys, rfl⟩
  have hb0 : Rect b0 (items.getD i dflt).h (items.getD i dflt).w :=
    hrect _ (by rw [hbeq]; exact List.mem_cons_self _ _)
  obtain ⟨r0, rrest, hreq⟩ : ∃ r0 rrest, b0 = r0 :: rrest := by
    have hlen : b0.length = (items.getD i dflt).h := hb0.1
    cases b0 with
    | nil =>
      exfalso
      rw [List.length_nil] at hlen
      omega
    | cons y ys => exact ⟨y, ys, rfl⟩
  have hr0 : r0.length = (items.getD i dflt).w :=
    hb0.2 _ (by rw [hreq]; exact List.mem_cons_self _ _)
  simp only [create_raster]
  rw [hstimg, hstlbl, mapA3_u16_id _ hbv, mapA2_u16_id _ hlv]
  refine ⟨rfl, rfl, ?_, ?_, ?_, ?_⟩
  · rw [hbeq, List.headD_cons]
    exact hb0.1
  · rw [hbeq, List.headD_cons, hreq, List.headD_cons]
    exact hr0
  · rw [heepsg, getD_map_lt _ _ i (0 : ℤ) dflt hi]
  · rw [heaff, getD_map_lt _ _ i (⟨0, 0, 0, 0, 0, 0⟩ : Geo) dflt hi]

theorem pack_reconstruct_roundtrip_witness :
    (create_raster w4store 0).img = ([oneItem].getD 0 oneItem).img ∧
    (create_raster w4store 0).lbl = ([oneItem].getD 0 oneItem).lbl ∧
    (create_raster w4store 0).h = ([oneItem].getD 0 oneItem).h ∧
    (create_raster w4store 0).w = ([oneItem].getD 0 oneItem).w ∧
    (create_raster w4store 0).epsg = ([oneItem].getD 0 oneItem).epsg ∧
    (create_raster w4store 0).geo = ([oneItem].getD 0 oneItem).geo :=
  pack_reconstruct_roundtrip [oneItem] w4store (by with_unfolding_all decide)
    (by with_unfolding_all decide) (by with_unfolding_all decide) 0 oneItem
    (by decide)

theorem load_lbl_arr_ok_inv (it : RasterItem) (mw mh : ℕ) (lb : A2)
    (hok : load_lbl_arr it mw mh = .ok lb) :
    it.lh ≤ mh ∧ it.lw ≤ mw ∧
    lb = pad2 it.lbl it.lw (mh - it.lh) (mw - it.lw) := by
  unfold load_lbl_arr at hok
  split at hok
  · cases hok
    rename_i hcond
    exact ⟨hcond.1, hcond.2, rfl⟩
  · cases hok

/-- C7 counterexample: the `/lbl` dataset written by the ImagePacker is
rank 3 - one 2-D array per item, shape `[N, H, W]` - not the claimed
`[N, 1, H, W]`: for one 2 x 3 item its shape is `[1, 2, 3]`. -/
theorem store_lbl_rank_cex :
    ((convert_img_to_h5 [itWide] none).map (fun st =>
      [st.lbl.length, (st.lbl.headD []).length,
       ((st.lbl.headD []).headD []).length])) = .ok [1, 2, 3] ∧
    ([1, 2, 3] : List ℕ) ≠ [1, 1, 2, 3] := by
  with_unfolding_all decide

/-- C7 amended: on success the persisted store contains `/img` of shape
`[N, C, H, W]`, `/lbl` of shape `[N, H, W]` (NOT `[N, 1, H, W]`),
`/path` of shape `[N]`, `/epsg` of shape `[N]`, `/affine` of shape
`[N, 6]` (six fields per `Geo` entry), and `/img_means`, `/img_stds` of
shape `[C]`, with all per-row datasets sharing the leading length `N`. -/
theorem store_schema_shapes (items : List RasterItem) (bsOpt : Option (List ℕ))
    (st : Store) (sel : List ℕ)
    (hconv : convert_img_to_h5 items bsOpt = .ok st)
    (hsel : band_selection (items.map (fun it => it.img.length)) bsOpt = .ok sel)
    (hwf : ∀ it ∈ items,
      (∀ b ∈ it.img, Rect b it.h it.w) ∧ Rect it.lbl it.lh it.lw) :
    st.img.length = items.length ∧
    (∀ x ∈ st.img, x.length = sel.length ∧
      ∀ b ∈ x, Rect b (canvasH items) (canvasW items)) ∧
    st.lbl.length = items.length ∧
    (∀ lb ∈ st.lbl, Rect lb (canvasH items) (canvasW items)) ∧
    st.path.length = items.length ∧
    st.epsg.length = items.length ∧
    st.affine.length = items.length ∧
    st.img_means.length = sel.length ∧
    st.img_stds.length = sel.length := by
  obtain ⟨sel', imgs, lbls, hsel', himgs, hlbls, heimg, helbl, hepath, heepsg,
    heaff, hmean, hstd⟩ := convert_ok_inv items bsOpt st hconv
  have hseleq : sel' = sel := by
    have h := hsel'.symm.trans hsel
    cases h
    rfl
  subst hseleq
  have himgs_len : imgs.length = items.length := mapEx_ok_length _ himgs
  have hlbls_len : lbls.length = items.length := mapEx_ok_length _ hlbls
  refine ⟨by simp [heimg, himgs_len], ?_, by simp [helbl, hlbls_len], ?_,
    by simp [hepath], by simp [heepsg], by simp [heaff],
    by simp [hmean, band_means], by simp [hstd, band_stds]⟩
  · intro x hx
    rw [heimg] at hx
    obtain ⟨a, ha, rfl⟩ := List.mem_map.mp hx
    obtain ⟨it, hit, hload⟩ := mapEx_ok_mem _ himgs a ha
    obtain ⟨hbs, hhle, hwle, haval⟩ := load_img_ok_inv _ _ _ _ _ hload
    constructor
    · simp [mapA3, haval]
    · intro b hb
      obtain ⟨b0, hb0, rfl⟩ := List.mem_map.mp hb
      rw [haval] at hb0
      obtain ⟨b1, hb1, rfl⟩ := List.mem_map.mp hb0
      obtain ⟨bn, hbn, rfl⟩ := List.mem_map.mp hb1
      obtain ⟨h1, h2⟩ := hbs bn hbn
      have hband : it.img.getD (bn - 1) [] ∈ it.img := by
        rw [List.getD_eq_getElem _ _ (by omega)]
        exact List.getElem_mem (by omega)
      have hrect := (hwf it hit).1 _ hband
      have hp := pad2_rect _ it.h it.w (canvasH items - it.h)
        (canvasW items - it.w) hrect
      rw [Nat.add_sub_cancel' hhle, Nat.add_sub_cancel' hwle] at hp
      exact mapA2_rect u16clip _ _ _ hp
  · intro lb hlb
    rw [helbl] at hlb
    obtain ⟨a, ha, rfl⟩ := List.mem_map.mp hlb
    obtain ⟨it, hit, hload⟩ := mapEx_ok_mem _ hlbls a ha
    obtain ⟨hhle, hwle, haval⟩ := load_lbl_arr_ok_inv _ _ _ _ hload
    have hp := pad2_rect _ it.lh it.lw (canvasH items - it.lh)
      (canvasW items - it.lw) (hwf it hit).2
    rw [Nat.add_sub_cancel' hhle, Nat.add_sub_cancel' hwle] at hp
    rw [haval]
    exact mapA2_rect u16clip _ _ _ hp

theorem store_schema_shapes_witness :
    w4store.img.length = [oneItem].length ∧
    (∀ x ∈ w4store.img, x.length = ([1] : List ℕ).length ∧
      ∀ b ∈ x, Rect b (canvasH [oneItem]) (canvasW [oneItem])) ∧
    w4store.lbl.length = [oneItem].length ∧
    (∀ lb ∈ w4store.lbl, Rect lb (canvasH [oneItem]) (canvasW [oneItem])) ∧
    w4store.path.length = [oneItem].length ∧
    w4store.epsg.length = [oneItem].length ∧
    w4store.affine.length = [oneItem].length ∧
    w4store.img_means.length = ([1] : List ℕ).length ∧
    w4store.img_stds.length = ([1] : List ℕ).length :=
  store_schema_shapes [oneItem] none w4store [1]
    (by with_unfolding_all decide) (by decide) (by with_unfolding_all decide)

/-- C10: `_load_lbl` reads the pixels from the fixed file name
`label.tif` inside the handed path's parent directory: its result depends
only on the parent directory (any two paths with the same parent load the
same data), and it fails when `label.tif` itself is absent - even when the
handed path does name an existing file (which discovery counted but which
is never read). -/
theorem load_lbl_fixed_name (fs : FileSys) (p q : FPath) (mw mh : ℕ)
    (hpq : parentDir p = parentDir q) :
    load_lbl fs p mw mh = load_lbl fs q mw mh ∧
    (fsRead fs (parentDir p ++ ["label.tif"]) = none →
      ∀ a, fsRead fs p = some a → load_lbl fs p mw mh = .error ()) := by
  constructor
  · unfold load_lbl
    rw [hpq]
  · intro hnone a ha
    unfold load_lbl
    rw [hnone]

theorem load_lbl_fixed_name_witness :
    load_lbl fsW ["d", "label_a.tif"] 4 4 = load_lbl fsW ["d", "other.tif"] 4 4 ∧
    load_lbl fsW ["d", "label_a.tif"] 4 4 = .error () := by
  have h := load_lbl_fixed_name fsW ["d", "label_a.tif"] ["d", "other.tif"] 4 4
    (by decide)
  exact ⟨h.1, h.2 (by decide) [[1]] (by decide)⟩
